import Mathlib

/-!
Verification development for the pare repository (xzy3/pare), a FASTQ
compression tool.  The Rust sources are embedded shallowly:

* Byte streams are modelled as `List Nat` (each element a byte value).
* Buffered readers are modelled as functions consuming a prefix of the
  byte list and returning the remaining suffix.
* The LZMA (xz) layer is modelled as an identity transport: compression
  followed by decompression of the same stream is the identity, and no
  theorem below depends on the size or contents of a compressed
  representation other than through this round trip.  All framing claims
  are therefore stated on the byte streams under the xz layer.
* Rust panics are modelled as `Option.none`; fallible operations return
  `Except`.

Sources embedded: src/seq_files/fastq.rs, src/compression_models/mod.rs,
src/compression_models/lzma_single_file.rs,
src/compression_models/lzma_multi_stream.rs.
-/

/-! ## Record model (struct FastQRead, fastq.rs lines 37-43)

`letters` holds the lower-cased nucleotide bytes, `qualities` the
(already offset-shifted) quality values, `title` and `sub_title` the
UTF-8 bytes of the corresponding Rust `String`s. -/

structure Read where
  letters : List Nat
  qualities : List Nat
  title : List Nat
  sub_title : List Nat
deriving DecidableEq, Repr

/-- A `Pair` is the unit of work of every codec: reads r1 and r2. -/
abbrev Pair := Read × Read

/-- Error taxonomy of `CompressionModelError` (mod.rs lines 36-79),
restricted to the variants reachable in the embedded code paths.
`EncodingError` corresponds to the `FromUtf8Error` conversion. -/
inductive CErr where
  | IncompleteRecord
  | MissingVersion
  | EncodingError
  | OpenedWithWrongModel
deriving DecidableEq, Repr

/-- Error taxonomy of `FastQFileError` (fastq.rs lines 58-81).  The
`line` payload of `NoTitleLine` is dropped (the embedding does not track
the reader's line counter, which only feeds that payload), and the
`InvalidNucleotideLetter` payload carries the offending byte. -/
inductive FErr where
  | NoTitleLine
  | NoDescriptionLine
  | InvalidQualityLetter
  | MismatchedSequenceLength
  | InvalidNucleotideLetter (c : Nat)
  | IncompleteRecord
  | FastATitleLine
  | MissingPairedRead
deriving DecidableEq, Repr

/-! ## Byte-stream primitives

`readUntil d s` models `BufRead::read_until(d, &mut buf)` on a stream
holding exactly the bytes `s`: it returns the bytes read (including the
delimiter when found; everything up to EOF otherwise) and the remaining
stream. -/

def readUntil (d : Nat) : List Nat → List Nat × List Nat
  | [] => ([], [])
  | b :: rest =>
    if b = d then ([b], rest)
    else
      let (buf, r) := readUntil d rest
      (b :: buf, r)

theorem readUntil_append (d : Nat) (s : List Nat) :
    (readUntil d s).1 ++ (readUntil d s).2 = s := by
  induction s with
  | nil => rfl
  | cons b rest ih =>
    rw [readUntil]
    split
    · simp_all
    · simpa using ih

theorem readUntil_delim (d : Nat) (t rest : List Nat) (h : d ∉ t) :
    readUntil d (t ++ d :: rest) = (t ++ [d], rest) := by
  induction t with
  | nil => simp [readUntil]
  | cons b t ih =>
    have hb : b ≠ d := fun he => h (he ▸ List.mem_cons_self b t)
    rw [List.cons_append, readUntil, if_neg hb, ih (fun hm => h (List.mem_cons_of_mem b hm))]
    simp

theorem readUntil_no_delim (d : Nat) (s : List Nat) (h : d ∉ s) :
    readUntil d s = (s, []) := by
  induction s with
  | nil => rfl
  | cons b rest ih =>
    have hb : b ≠ d := fun he => h (he ▸ List.mem_cons_self b rest)
    rw [readUntil, if_neg hb, ih (fun hm => h (List.mem_cons_of_mem b hm))]

/-! ## UTF-8 validity

`String::from_utf8` in `read_string` succeeds exactly on RFC 3629 valid
byte sequences.  `utf8Run ranges l` is the standard byte automaton:
`ranges` lists the admissible bounds of the pending continuation bytes
of the current code point. -/

def utf8Run : List (Nat × Nat) → List Nat → Bool
  | [], [] => true
  | [], b :: r =>
    if b ≤ 0x7F then utf8Run [] r
    else if b ≤ 0xC1 then false
    else if b ≤ 0xDF then utf8Run [(0x80, 0xBF)] r
    else if b = 0xE0 then utf8Run [(0xA0, 0xBF), (0x80, 0xBF)] r
    else if b = 0xED then utf8Run [(0x80, 0x9F), (0x80, 0xBF)] r
    else if b ≤ 0xEF then utf8Run [(0x80, 0xBF), (0x80, 0xBF)] r
    else if b = 0xF0 then utf8Run [(0x90, 0xBF), (0x80, 0xBF), (0x80, 0xBF)] r
    else if b = 0xF4 then utf8Run [(0x80, 0x8F), (0x80, 0xBF), (0x80, 0xBF)] r
    else if b ≤ 0xF4 then utf8Run [(0x80, 0xBF), (0x80, 0xBF), (0x80, 0xBF)] r
    else false
  | _ :: _, [] => false
  | (lo, hi) :: cs, b :: r => if lo ≤ b && b ≤ hi then utf8Run cs r else false

def utf8Valid (l : List Nat) : Bool := utf8Run [] l

theorem utf8Run_lt255 (l : List Nat) : ∀ cs : List (Nat × Nat), (∀ p ∈ cs, p.2 ≤ 0xBF) →
    utf8Run cs l = true → ∀ b ∈ l, b < 255 := by
  induction l with
  | nil => intro cs _ _ b hb; simp at hb
  | cons b r ih =>
    intro cs hcs h x hx
    cases cs with
    | nil =>
      rw [utf8Run.eq_def] at h
      simp only [] at h
      rcases List.mem_cons.mp hx with rfl | hx
      · split at h
        · omega
        split at h
        · simp at h
        split at h
        · omega
        split at h
        · omega
        split at h
        · omega
        split at h
        · omega
        split at h
        · omega
        split at h
        · omega
        split at h
        · omega
        simp at h
      · split at h
        · exact ih [] (by simp) h x hx
        split at h
        · simp at h
        split at h
        · exact ih _ (by decide) h x hx
        split at h
        · exact ih _ (by decide) h x hx
        split at h
        · exact ih _ (by decide) h x hx
        split at h
        · exact ih _ (by decide) h x hx
        split at h
        · exact ih _ (by decide) h x hx
        split at h
        · exact ih _ (by decide) h x hx
        split at h
        · exact ih _ (by decide) h x hx
        simp at h
    | cons p cs' =>
      obtain ⟨lo, hi⟩ := p
      rw [utf8Run.eq_def] at h
      simp only [Bool.and_eq_true, decide_eq_true_eq] at h
      split at h
      · rcases List.mem_cons.mp hx with rfl | hx
        · rename_i hb
          have := hcs (lo, hi) (List.mem_cons_self _ _)
          simp only [] at this
          omega
        · exact ih cs' (fun p hp => hcs p (List.mem_cons_of_mem _ hp)) h x hx
      · simp at h

theorem utf8Valid_not255 (l : List Nat) (h : utf8Valid l = true) : (255 : Nat) ∉ l := by
  intro hm
  have := utf8Run_lt255 l [] (by simp) h 255 hm
  omega

/-! ## Shared sentinel-framing reader

`XZSingleFileReader` (lzma_single_file.rs lines 80-191) and
`XZMultiStreamReader` (lzma_multi_stream.rs lines 111-222) contain
textually identical `check_magic`, `read_string`, `read_u8` and
`read_next` methods, differing only in the `FILE_VERSION` constant that
`check_magic` compares against.  They are embedded once, with the
version constant a parameter of `checkMagic`/`decompressWith`. -/

/-- Bytes of `FILE_VERSION` in lzma_single_file.rs line 12:
`b"PARE lzma_single_file v1\xFF"`. -/
def versionSingle : List Nat :=
  [80, 65, 82, 69, 32, 108, 122, 109, 97, 95, 115, 105, 110, 103, 108, 101, 95,
   102, 105, 108, 101, 32, 118, 49, 255]

/-- Bytes of `FILE_VERSION` in lzma_multi_stream.rs line 13:
`b"PARE lzma_multi_stream v1\xFF"`. -/
def versionMulti : List Nat :=
  [80, 65, 82, 69, 32, 108, 122, 109, 97, 95, 109, 117, 108, 116, 105, 95, 115,
   116, 114, 101, 97, 109, 32, 118, 49, 255]

/-- `read_u8` (lzma_single_file.rs lines 113-127): read until the 0xFF
sentinel; zero bytes read means EOF (`Ok(false)`, returned as `none`);
otherwise pop the last byte, which must be the sentinel, else
`IncompleteRecord`. -/
def readU8 (s : List Nat) : Except CErr (Option (List Nat) × List Nat) :=
  let (buf, rest) := readUntil 255 s
  if buf = [] then .ok (none, rest)
  else
    match buf.getLast? with
    | some 255 => .ok (some buf.dropLast, rest)
    | _ => .error .IncompleteRecord

/-- `read_string` (lzma_single_file.rs lines 104-111): `read_u8`, then
`String::from_utf8` on the buffer (also in the EOF case, where the
buffer is empty), failing with the `FromUtf8Error` conversion
(`EncodingError`). -/
def readString (s : List Nat) : Except CErr (Option (List Nat) × List Nat) :=
  match readU8 s with
  | .error e => .error e
  | .ok (ob, rest) =>
    if utf8Valid (ob.getD []) then .ok (ob, rest) else .error .EncodingError

/-- `Read::read_exact` into a buffer resized to `n`: succeeds with
exactly `n` bytes, fails when fewer remain.  The callers in `read_next`
map any failure to `IncompleteRecord`. -/
def readExact (n : Nat) (s : List Nat) : Except CErr (List Nat × List Nat) :=
  if n ≤ s.length then .ok (s.take n, s.drop n) else .error .IncompleteRecord

/-- `check_magic` (lzma_single_file.rs lines 91-102 and
lzma_multi_stream.rs lines 122-133, with `ver` the respective
`FILE_VERSION`): read until 0xFF; zero bytes is `MissingVersion`, any
buffer other than the version string is `MissingVersion`. -/
def checkMagic (ver : List Nat) (s : List Nat) : Except CErr (List Nat) :=
  let (buf, rest) := readUntil 255 s
  if buf = [] then .error .MissingVersion
  else if buf = ver then .ok rest
  else .error .MissingVersion

/-- `read_next` (lzma_single_file.rs lines 129-170, identical in
lzma_multi_stream.rs lines 160-201): titles r1, r2 as sentinel strings
(EOF on the first is clean end of stream, on the second
`IncompleteRecord`), letters r1, r2 as sentinel byte strings, then the
qualities as raw byte runs whose lengths are the respective letter
lengths.  In `decompress` the records passed in always carry the
`FastQRead::default()` empty `sub_title`, which `read_next` never
touches; the embedding therefore returns `sub_title := []`. -/
def readNextRecord (s : List Nat) : Except CErr (Option Pair × List Nat) :=
  match readString s with
  | .error e => .error e
  | .ok (none, rest) => .ok (none, rest)
  | .ok (some t1, s1) =>
    match readString s1 with
    | .error e => .error e
    | .ok (none, _) => .error .IncompleteRecord
    | .ok (some t2, s2) =>
      match readU8 s2 with
      | .error e => .error e
      | .ok (none, _) => .error .IncompleteRecord
      | .ok (some l1, s3) =>
        match readU8 s3 with
        | .error e => .error e
        | .ok (none, _) => .error .IncompleteRecord
        | .ok (some l2, s4) =>
          match readExact l1.length s4 with
          | .error _ => .error .IncompleteRecord
          | .ok (q1, s5) =>
            match readExact l2.length s5 with
            | .error _ => .error .IncompleteRecord
            | .ok (q2, s6) =>
              .ok (some (⟨l1, q1, t1, []⟩, ⟨l2, q2, t2, []⟩), s6)

/-! Length bookkeeping: each successful `read_next` consumes at least
one byte, which bounds the number of loop iterations in `decompress`
by the stream length. -/

theorem readU8_length (s : List Nat) (ob : Option (List Nat)) (r : List Nat)
    (h : readU8 s = .ok (ob, r)) : r.length ≤ s.length ∧ (ob.isSome → r.length < s.length) := by
  have hap := readUntil_append 255 s
  have hlen : (readUntil 255 s).1.length + (readUntil 255 s).2.length = s.length := by
    have := congrArg List.length hap
    simpa using this
  rw [readU8] at h
  rcases hru : readUntil 255 s with ⟨buf, rest⟩
  rw [hru] at h hlen
  simp only [] at h hlen
  split at h
  · rename_i hbuf
    subst hbuf
    simp only [Except.ok.injEq, Prod.mk.injEq] at h
    obtain ⟨rfl, rfl⟩ := h
    simp at hlen
    simp [hlen]
  · rename_i hbuf
    split at h
    · simp only [Except.ok.injEq, Prod.mk.injEq] at h
      obtain ⟨rfl, rfl⟩ := h
      have hpos : 0 < buf.length := List.length_pos.mpr hbuf
      exact ⟨by omega, fun _ => by omega⟩
    · exact absurd h (by simp)

theorem readString_length (s : List Nat) (ob : Option (List Nat)) (r : List Nat)
    (h : readString s = .ok (ob, r)) : r.length ≤ s.length ∧ (ob.isSome → r.length < s.length) := by
  rw [readString] at h
  split at h
  · exact absurd h (by simp)
  · rename_i ob' rest' heq
    split at h
    · simp only [Except.ok.injEq, Prod.mk.injEq] at h
      obtain ⟨rfl, rfl⟩ := h
      exact readU8_length s _ _ heq
    · exact absurd h (by simp)

theorem readExact_length (n : Nat) (s : List Nat) (q r : List Nat)
    (h : readExact n s = .ok (q, r)) : r.length ≤ s.length ∧ q.length = n := by
  rw [readExact] at h
  split at h
  · simp only [Except.ok.injEq, Prod.mk.injEq] at h
    obtain ⟨rfl, rfl⟩ := h
    rename_i hn
    constructor
    · simp
    · simp [List.length_take]; omega
  · exact absurd h (by simp)

theorem readNextRecord_length (s : List Nat) (p : Pair) (r : List Nat)
    (h : readNextRecord s = .ok (some p, r)) : r.length < s.length := by
  rw [readNextRecord] at h
  split at h
  · exact absurd h (by simp)
  · exact absurd h (by simp)
  · rename_i t1 s1 h1
    split at h
    · exact absurd h (by simp)
    · exact absurd h (by simp)
    · rename_i t2 s2 h2
      split at h
      · exact absurd h (by simp)
      · exact absurd h (by simp)
      · rename_i l1 s3 h3
        split at h
        · exact absurd h (by simp)
        · exact absurd h (by simp)
        · rename_i l2 s4 h4
          split at h
          · exact absurd h (by simp)
          · rename_i q1 s5 h5
            split at h
            · exact absurd h (by simp)
            · rename_i q2 s6 h6
              simp only [Except.ok.injEq, Prod.mk.injEq] at h
              obtain ⟨-, rfl⟩ := h
              have e1 := (readString_length s _ _ h1).2 (by simp)
              have e2 := (readString_length s1 _ _ h2).1
              have e3 := (readU8_length s2 _ _ h3).1
              have e4 := (readU8_length s3 _ _ h4).1
              have e5 := (readExact_length _ s4 _ _ h5).1
              have e6 := (readExact_length _ s5 _ _ h6).1
              omega

/-- The `decompress` loop (lzma_single_file.rs lines 183-189 and
lzma_multi_stream.rs lines 214-219): repeatedly `read_next`, handing
each decoded pair to the sink's `write_next`, until `read_next` returns
false; an error aborts the call.  The result records the pairs passed to
the sink, in order, together with the error that ended the loop (if
any).  The loop is embedded with a fuel argument; since every successful
`read_next` consumes at least one byte
(`readNextRecord_length`), any fuel exceeding the stream length computes
the loop's value (`decodeLoopF_fuel`), and the wrapper below always
supplies such fuel. -/
def decodeLoopF : Nat → List Nat → List Pair × Option CErr
  | 0, _ => ([], none)
  | fuel + 1, s =>
    match readNextRecord s with
    | .error e => ([], some e)
    | .ok (none, _) => ([], none)
    | .ok (some p, r) =>
      let (ps, e) := decodeLoopF fuel r
      (p :: ps, e)

/-- `decompress`, parametrised by the model's `FILE_VERSION`:
`check_magic` first (a failure there reaches the sink never), then the
record loop. -/
def decompressWith (ver : List Nat) (s : List Nat) : List Pair × Option CErr :=
  match checkMagic ver s with
  | .error e => ([], some e)
  | .ok rest => decodeLoopF (rest.length + 1) rest

/-- `XZSingleFileReader::decompress` (lzma_single_file.rs 173-191). -/
def singleDecompress (s : List Nat) : List Pair × Option CErr :=
  decompressWith versionSingle s

/-- `XZMultiStreamReader::decompress` (lzma_multi_stream.rs 204-222). -/
def multiDecompress (s : List Nat) : List Pair × Option CErr :=
  decompressWith versionMulti s

theorem decodeLoopF_fuel (f1 : Nat) : ∀ f2 s, s.length < f1 → s.length < f2 →
    decodeLoopF f1 s = decodeLoopF f2 s := by
  induction f1 with
  | zero => intro f2 s h1 _; omega
  | succ f1 ih =>
    intro f2 s h1 h2
    match f2, h2 with
    | f2 + 1, h2 =>
      rw [decodeLoopF, decodeLoopF]
      cases hr : readNextRecord s with
      | error e => rfl
      | ok v =>
        match v with
        | (none, _) => rfl
        | (some p, r) =>
          have hlt := readNextRecord_length s p r hr
          simp only []
          rw [ih f2 r (by omega) (by omega)]

/-! ## Single-container encoder (XZSingleFileWriter, lzma_single_file.rs 14-64)

`write_u8` writes the record bytes followed by the 0xFF sentinel;
`write_string` is `write_u8` on the string's UTF-8 bytes.  `compress`
writes `FILE_VERSION` once, then per pair the two titles, the two letter
strings, and the two raw quality runs.  (`BufWriter`/`Write::write` are
modelled as appending the full buffer.) -/

def encodeField (l : List Nat) : List Nat := l ++ [255]

def encodePair (p : Pair) : List Nat :=
  encodeField p.1.title ++ encodeField p.2.title ++
  encodeField p.1.letters ++ encodeField p.2.letters ++
  p.1.qualities ++ p.2.qualities

def singleCompress (ps : List Pair) : List Nat :=
  versionSingle ++ (ps.map encodePair).flatten

/-! ## Validity of pairs

A valid `Read` is one as produced by the FastQ source: the title is the
byte representation of a Rust `String` (hence valid UTF-8), the letters
are lower-case nucleotide codes n/a/t/c/g, and the data-model invariant
`len(sequence) == len(qualities)` holds. -/

def validNucByte (b : Nat) : Bool :=
  b = 110 || b = 97 || b = 116 || b = 99 || b = 103

def ValidRead (r : Read) : Prop :=
  utf8Valid r.title = true ∧ r.letters.all validNucByte = true ∧
    r.qualities.length = r.letters.length

def ValidPair (p : Pair) : Prop := ValidRead p.1 ∧ ValidRead p.2

instance : DecidablePred ValidRead := fun r => by
  unfold ValidRead; infer_instance

instance : DecidablePred ValidPair := fun p => by
  unfold ValidPair; infer_instance

/-- What the single-container decoder reconstructs from an encoded pair:
all fields except `sub_title`, which the wire format does not carry and
the decoder leaves at its `default()` empty value. -/
def clearSub (p : Pair) : Pair :=
  ({ p.1 with sub_title := [] }, { p.2 with sub_title := [] })

theorem validNucByte_ne255 (l : List Nat) (h : l.all validNucByte = true) :
    (255 : Nat) ∉ l := by
  intro hm
  have := List.all_eq_true.mp h 255 hm
  simp [validNucByte] at this

/-! Field-level decoding lemmas used by the round-trip and truncation
arguments. -/

theorem readU8_field (t rest : List Nat) (h : (255 : Nat) ∉ t) :
    readU8 (t ++ 255 :: rest) = .ok (some t, rest) := by
  rw [readU8, readUntil_delim 255 t rest h]
  simp only []
  rw [if_neg (by simp)]
  rw [List.getLast?_concat]
  simp

theorem readString_field (t rest : List Nat) (hu : utf8Valid t = true) :
    readString (t ++ 255 :: rest) = .ok (some t, rest) := by
  rw [readString, readU8_field t rest (utf8Valid_not255 t hu)]
  simp [hu]

theorem readU8_empty : readU8 [] = .ok (none, []) := by
  rw [readU8]
  simp [readUntil]

theorem readString_empty : readString [] = .ok (none, []) := by
  rw [readString, readU8_empty]
  simp [utf8Valid, utf8Run]

theorem readExact_field (q rest : List Nat) : readExact q.length (q ++ rest) = .ok (q, rest) := by
  rw [readExact, if_pos (by simp)]
  simp [List.take_left, List.drop_left]

theorem encodePair_shape (p : Pair) (rest : List Nat) :
    encodePair p ++ rest =
      p.1.title ++ 255 :: (p.2.title ++ 255 :: (p.1.letters ++ 255 ::
        (p.2.letters ++ 255 :: (p.1.qualities ++ (p.2.qualities ++ rest))))) := by
  simp [encodePair, encodeField]

theorem encodePair_length_pos (p : Pair) : 0 < (encodePair p).length := by
  simp [encodePair, encodeField]

theorem readNextRecord_empty : readNextRecord [] = .ok (none, []) := by
  rw [readNextRecord, readString_empty]

theorem readNextRecord_encode (p : Pair) (rest : List Nat) (hp : ValidPair p) :
    readNextRecord (encodePair p ++ rest) = .ok (some (clearSub p), rest) := by
  obtain ⟨⟨hu1, hl1, hq1⟩, hu2, hl2, hq2⟩ := hp
  rw [encodePair_shape, readNextRecord]
  rw [readString_field _ _ hu1]
  simp only []
  rw [readString_field _ _ hu2]
  simp only []
  rw [readU8_field _ _ (validNucByte_ne255 _ hl1)]
  simp only []
  rw [readU8_field _ _ (validNucByte_ne255 _ hl2)]
  simp only []
  rw [← hq1, readExact_field]
  simp only []
  rw [← hq2, readExact_field]
  simp [clearSub]

theorem decodeLoopF_encode (ps : List Pair) (h : ∀ p ∈ ps, ValidPair p) :
    ∀ fuel, (ps.map encodePair).flatten.length < fuel →
    decodeLoopF fuel (ps.map encodePair).flatten = (ps.map clearSub, none) := by
  induction ps with
  | nil =>
    intro fuel hf
    match fuel, hf with
    | f + 1, _ =>
      rw [List.map_nil, List.flatten_nil, decodeLoopF, readNextRecord_empty]
      rfl
  | cons p ps ih =>
    intro fuel hf
    match fuel, hf with
    | f + 1, hf =>
      rw [List.map_cons, List.flatten_cons, decodeLoopF]
      rw [readNextRecord_encode p _ (h p (List.mem_cons_self p ps))]
      simp only []
      have hlen : (List.map encodePair ps).flatten.length < f := by
        have hp := encodePair_length_pos p
        rw [List.map_cons, List.flatten_cons, List.length_append] at hf
        omega
      rw [ih (fun q hq => h q (List.mem_cons_of_mem p hq)) f hlen]
      simp

theorem checkMagic_prefix (core rest : List Nat) (h : (255 : Nat) ∉ core) :
    checkMagic (core ++ [255]) ((core ++ [255]) ++ rest) = .ok rest := by
  rw [checkMagic]
  have hs : (core ++ [255]) ++ rest = core ++ 255 :: rest := by simp
  rw [hs, readUntil_delim 255 core rest h]
  simp

/-! ## Multi-stream writer (XZMultiStreamWriter, lzma_multi_stream.rs 15-95)

`compress` accumulates three spools.  Per pair it appends the two titles
(each newline-terminated) to the title spool, the two letter strings
(each newline-terminated) to the nucleotide spool, and the two quality
runs (no delimiter) to the quality spool; on source exhaustion it calls
`finish_file(titles)`, `finish_file(nucleotides)`,
`finish_file(qualities)` and `Builder::finish`.  `write_metadata` exists
(lines 26-35) but `compress` never calls it, so no `"metadata"` entry is
ever produced.

`finish_file` finishes the spool's xz encoder, records
`stream_position()` of the result in the tar header's size field,
rewinds, and appends the spool read back through an `XzDecoder` — under
the identity-transport model of the xz layer the appended entry body is
the raw spool content and the recorded position is its length.  (In the
real code the recorded position is the compressed length while the
appended bytes are the decompressed ones; no theorem below relies on the
size field.)

The tar layer (`tar::Builder` with `Header::new_gnu`) is embedded at the
byte level: a GNU header block is 512 bytes — name (100, NUL padded),
mode/uid/gid (8 each, left at NUL since `finish_file` never sets them),
size (12, zero-padded octal plus NUL), mtime (12, NUL), checksum (8,
zero-padded octal over the header with the checksum field as spaces,
plus NUL), typeflag (1, NUL), linkname (100, NUL), magic+version
("ustar  \0"), and 247 NUL bytes for the remaining fields.  `append`
writes the header, the entry bytes, and NUL padding to a 512-byte
boundary; `finish` writes two 512-byte NUL blocks. -/

def zeros (n : Nat) : List Nat := List.replicate n 0

def padZeros (w : Nat) (l : List Nat) : List Nat := l ++ zeros (w - l.length)

def octalDigits : Nat → List Nat
  | n =>
    if h : n < 8 then [48 + n]
    else octalDigits (n / 8) ++ [48 + n % 8]
decreasing_by exact Nat.div_lt_self (by omega) (by omega)

/-- A numeric tar header field of width `w`: the octal digits
right-aligned over leading ASCII zeros, final byte NUL (tar-rs
`octal_into`). -/
def octalField (w : Nat) (n : Nat) : List Nat :=
  List.replicate (w - 1 - (octalDigits n).length) 48 ++ octalDigits n ++ [0]

/-- The 512-byte GNU header with an explicit checksum field. -/
def tarHeaderWith (name : List Nat) (size : Nat) (ck : List Nat) : List Nat :=
  padZeros 100 name ++ zeros 24 ++ octalField 12 size ++ zeros 12 ++ ck ++
    [0] ++ zeros 100 ++ [117, 115, 116, 97, 114, 32, 32, 0] ++ zeros 247

def tarHeader (name : List Nat) (size : Nat) : List Nat :=
  tarHeaderWith name size
    (octalField 8 (tarHeaderWith name size (List.replicate 8 32)).sum)

def tarEntry (name data : List Nat) : List Nat :=
  tarHeader name data.length ++ data ++ zeros ((512 - data.length % 512) % 512)

def tarFinish : List Nat := zeros 1024

/-- Entry names used by `compress` (lzma_multi_stream.rs lines 88-90). -/
def titlesName : List Nat := [116, 105, 116, 108, 101, 115]

def nucleotidesName : List Nat :=
  [110, 117, 99, 108, 101, 111, 116, 105, 100, 101, 115]

def qualitiesName : List Nat := [113, 117, 97, 108, 105, 116, 105, 101, 115]

/-- The name `write_metadata` would use (lzma_multi_stream.rs line 29). -/
def metadataName : List Nat := [109, 101, 116, 97, 100, 97, 116, 97]

def titleSpool (ps : List Pair) : List Nat :=
  (ps.map fun p => p.1.title ++ [10] ++ p.2.title ++ [10]).flatten

def nucleotidesSpool (ps : List Pair) : List Nat :=
  (ps.map fun p => p.1.letters ++ [10] ++ p.2.letters ++ [10]).flatten

def qualitiesSpool (ps : List Pair) : List Nat :=
  (ps.map fun p => p.1.qualities ++ p.2.qualities).flatten

/-- The named entries `compress` hands to the container, in order. -/
def multiEntries (ps : List Pair) : List (List Nat × List Nat) :=
  [(titlesName, titleSpool ps),
   (nucleotidesName, nucleotidesSpool ps),
   (qualitiesName, qualitiesSpool ps)]

/-- `XZMultiStreamWriter::compress`: the byte stream under the outer xz
layer is the tar serialization of the three entries. -/
def multiCompress (ps : List Pair) : List Nat :=
  ((multiEntries ps).map fun e => tarEntry e.1 e.2).flatten ++ tarFinish

theorem multiCompress_head (ps : List Pair) :
    ∃ r : List Nat, multiCompress ps = 116 :: r := by
  rw [multiCompress, multiEntries]
  simp only [List.map_cons, List.flatten_cons, tarEntry, tarHeader, tarHeaderWith,
    padZeros, titlesName, List.cons_append, List.append_assoc]
  exact ⟨_, rfl⟩

/-- Any stream beginning with byte 116 fails `check_magic` against
either version constant (both begin with byte 80), with no bytes handed
past the check. -/
theorem checkMagic_starts116 (ver : List Nat) (hv : ver = versionSingle ∨ ver = versionMulti)
    (r : List Nat) : checkMagic ver (116 :: r) = .error .MissingVersion := by
  rw [checkMagic, readUntil]
  rcases hru : readUntil 255 r with ⟨buf, rest⟩
  simp only [if_neg (by omega : ¬(116 : Nat) = 255)]
  have h1 : ¬(116 :: buf = []) := by simp
  have h2 : ¬(116 :: buf = ver) := by
    rcases hv with rfl | rfl <;> simp [versionSingle, versionMulti]
  simp [h1, h2]

theorem checkMagic_single_self (rest : List Nat) :
    checkMagic versionSingle (versionSingle ++ rest) = .ok rest := by
  have h : versionSingle = versionSingle.dropLast ++ [255] := by decide
  rw [h]
  exact checkMagic_prefix _ rest (by decide)

theorem checkMagic_multi_on_single (rest : List Nat) :
    checkMagic versionMulti (versionSingle ++ rest) = .error .MissingVersion := by
  have h : versionSingle = versionSingle.dropLast ++ [255] := by decide
  rw [h, checkMagic]
  have hs : (versionSingle.dropLast ++ [255]) ++ rest = versionSingle.dropLast ++ 255 :: rest := by
    simp
  rw [hs, readUntil_delim 255 _ rest (by decide)]
  have h1 : ¬(versionSingle.dropLast ++ [255] = ([] : List Nat)) := by simp
  have h2 : ¬(versionSingle.dropLast ++ [255] = versionMulti) := by decide
  simp [h1, h2]

/-! ## Claim theorems for the codec layer -/

/-- A concrete pair whose reads carry a non-empty `sub_title`. -/
def cxPair : Pair := (⟨[97], [33], [116], [120]⟩, ⟨[99], [34], [117], [121]⟩)

/-- C1 counterexample, refuting the claim as stated at concrete inputs:
(a) the multi-stream decoder does not accept the multi-stream encoding
of the empty pair sequence, and (b) single-container decoding of the
encoding of one valid pair does not reproduce the pair, because its
non-empty `sub_title` is not carried by the wire format. -/
theorem round_trip_claim_counterexample :
    multiDecompress (multiCompress []) ≠ (([] : List Pair), none) ∧
    singleDecompress (singleCompress [cxPair]) ≠ ([cxPair], none) := by
  constructor
  · obtain ⟨r, hr⟩ := multiCompress_head []
    rw [multiDecompress, hr, decompressWith, checkMagic_starts116 versionMulti (Or.inr rfl) r]
    simp
  · decide

/-- C1 (amended): for every sequence of valid pairs, single-container
decode of the single-container encoding reproduces every pair's title,
sequence and quality fields in order, with each decoded `sub_title`
empty (the format does not carry it), and the decode loop ends without
error; the multi-stream decoder rejects every multi-stream artifact with
`MissingVersion`, so no multi-stream round trip exists. -/
theorem single_round_trip (ps : List Pair) (h : ∀ p ∈ ps, ValidPair p) :
    singleDecompress (singleCompress ps) = (ps.map clearSub, none) ∧
    ∀ qs : List Pair, multiDecompress (multiCompress qs) = ([], some .MissingVersion) := by
  constructor
  · rw [singleDecompress, singleCompress, decompressWith, checkMagic_single_self]
    exact decodeLoopF_encode ps h _ (by omega)
  · intro qs
    obtain ⟨r, hr⟩ := multiCompress_head qs
    rw [multiDecompress, hr, decompressWith, checkMagic_starts116 versionMulti (Or.inr rfl) r]

/-- Witness for `single_round_trip` at a concrete valid pair. -/
theorem single_round_trip_witness :
    (∀ p ∈ [cxPair], ValidPair p) ∧
    singleDecompress (singleCompress [cxPair]) = ([cxPair].map clearSub, none) :=
  ⟨by decide, (single_round_trip [cxPair] (by decide)).1⟩

/-- C2: the finished multi-stream artifact holds exactly the three
entries `"titles"`, `"nucleotides"`, `"qualities"`, in that order, and
no `"metadata"` entry — `compress` never calls `write_metadata`. -/
theorem multi_entry_names (ps : List Pair) :
    (multiEntries ps).map Prod.fst = [titlesName, nucleotidesName, qualitiesName] ∧
    metadataName ∉ (multiEntries ps).map Prod.fst := by
  constructor
  · rfl
  · show metadataName ∉ [titlesName, nucleotidesName, qualitiesName]
    decide

/-- C3 counterexample: the multi-stream encoding of zero pairs is not
decoded back to zero pairs by the multi-stream decoder. -/
theorem empty_input_multi_counterexample :
    multiDecompress (multiCompress []) ≠ (([] : List Pair), none) := by
  obtain ⟨r, hr⟩ := multiCompress_head []
  rw [multiDecompress, hr, decompressWith, checkMagic_starts116 versionMulti (Or.inr rfl) r]
  simp

/-- C3 (amended): encoding zero pairs with the single-container model
yields an artifact its own decoder accepts and decodes to zero pairs
with no sink call; the multi-stream decoder rejects the empty
multi-stream artifact with `MissingVersion`. -/
theorem empty_input_amended :
    singleDecompress (singleCompress []) = (([] : List Pair), none) ∧
    multiDecompress (multiCompress []) = (([] : List Pair), some .MissingVersion) := by
  constructor
  · decide
  · obtain ⟨r, hr⟩ := multiCompress_head []
    rw [multiDecompress, hr, decompressWith, checkMagic_starts116 versionMulti (Or.inr rfl) r]

/-- C5: feeding a multi-stream artifact to the single-container decoder,
or a single-container artifact to the multi-stream decoder, fails at
`check_magic` with `MissingVersion`, and no pair is handed to the sink
before the failure (the first component of the result is the list of
sink calls, here empty). -/
theorem wrong_model_guard (ps qs : List Pair) :
    singleDecompress (multiCompress ps) = ([], some .MissingVersion) ∧
    multiDecompress (singleCompress qs) = ([], some .MissingVersion) := by
  constructor
  · obtain ⟨r, hr⟩ := multiCompress_head ps
    rw [singleDecompress, hr, decompressWith, checkMagic_starts116 versionSingle (Or.inl rfl) r]
  · rw [multiDecompress, singleCompress, decompressWith, checkMagic_multi_on_single]

/-! ## Truncation behaviour of the single-container decoder -/

theorem readU8_trunc (t : List Nat) (h255 : (255 : Nat) ∉ t) (k : Nat) (h0 : 0 < k)
    (hk : k ≤ t.length) : readU8 (t.take k) = .error .IncompleteRecord := by
  have hmem : (255 : Nat) ∉ t.take k := fun hm => h255 (List.take_subset k t hm)
  rw [readU8, readUntil_no_delim 255 _ hmem]
  simp only []
  have hne : t.take k ≠ [] := by
    apply List.ne_nil_of_length_pos
    rw [List.length_take]
    omega
  rw [if_neg hne]
  rcases hgl : (t.take k).getLast? with _ | b
  · exact absurd (List.getLast?_eq_none_iff.mp hgl) hne
  · have hbmem : b ∈ t.take k := by
      obtain ⟨hh, he⟩ := List.mem_getLast?_eq_getLast (Option.mem_def.mpr hgl)
      exact he ▸ List.getLast_mem hh
    have hbne : b ≠ 255 := fun he => hmem (he ▸ hbmem)
    split
    · rename_i heq
      exact absurd (by injection heq) hbne
    · rfl

theorem readString_trunc (t : List Nat) (h255 : (255 : Nat) ∉ t) (k : Nat) (h0 : 0 < k)
    (hk : k ≤ t.length) : readString (t.take k) = .error .IncompleteRecord := by
  rw [readString, readU8_trunc t h255 k h0 hk]

/-- Any truncation strictly inside an encoded record makes `read_next`
fail with `IncompleteRecord`: whichever of the six fields the cut lands
in, the decoder never fabricates a short record. -/
theorem readNextRecord_trunc (p : Pair) (hp : ValidPair p) (k : Nat) (h0 : 0 < k)
    (hk : k < (encodePair p).length) :
    readNextRecord ((encodePair p).take k) = .error .IncompleteRecord := by
  obtain ⟨⟨l1, q1, t1, s1⟩, ⟨l2, q2, t2, s2⟩⟩ := p
  obtain ⟨⟨hu1, hl1, hq1⟩, hu2, hl2, hq2⟩ := hp
  simp only [] at hu1 hl1 hq1 hu2 hl2 hq2
  have h255t1 : (255 : Nat) ∉ t1 := utf8Valid_not255 _ hu1
  have h255t2 : (255 : Nat) ∉ t2 := utf8Valid_not255 _ hu2
  have h255l1 : (255 : Nat) ∉ l1 := validNucByte_ne255 _ hl1
  have h255l2 : (255 : Nat) ∉ l2 := validNucByte_ne255 _ hl2
  have hshape : encodePair (⟨l1, q1, t1, s1⟩, ⟨l2, q2, t2, s2⟩) =
      t1 ++ 255 :: (t2 ++ 255 :: (l1 ++ 255 :: (l2 ++ 255 :: (q1 ++ q2)))) := by
    simp [encodePair, encodeField]
  rw [hshape] at hk ⊢
  simp only [List.length_append, List.length_cons] at hk
  rcases Nat.lt_or_ge k (t1.length + 1) with hA | hA
  · have hk1 : k ≤ t1.length := by omega
    rw [List.take_append_of_le_length hk1, readNextRecord,
      readString_trunc t1 h255t1 k h0 hk1]
  · obtain ⟨k2, rfl⟩ : ∃ k2, k = t1.length + 1 + k2 := ⟨k - (t1.length + 1), by omega⟩
    have hsplit : (t1 ++ 255 :: (t2 ++ 255 :: (l1 ++ 255 :: (l2 ++ 255 :: (q1 ++ q2))))).take
        (t1.length + 1 + k2) =
        t1 ++ 255 :: (t2 ++ 255 :: (l1 ++ 255 :: (l2 ++ 255 :: (q1 ++ q2)))).take k2 := by
      rw [show t1.length + 1 + k2 = t1.length + (k2 + 1) by omega, List.take_append,
        List.take_succ_cons]
    rw [hsplit, readNextRecord, readString_field t1 _ hu1]
    simp only []
    rcases Nat.eq_zero_or_pos k2 with rfl | hk2pos
    · rw [List.take_zero, readString_empty]
    rcases Nat.lt_or_ge k2 (t2.length + 1) with hB | hB
    · have hk2 : k2 ≤ t2.length := by omega
      rw [List.take_append_of_le_length hk2, readString_trunc t2 h255t2 k2 hk2pos hk2]
    obtain ⟨k3, rfl⟩ : ∃ k3, k2 = t2.length + 1 + k3 := ⟨k2 - (t2.length + 1), by omega⟩
    have hsplit2 : (t2 ++ 255 :: (l1 ++ 255 :: (l2 ++ 255 :: (q1 ++ q2)))).take
        (t2.length + 1 + k3) =
        t2 ++ 255 :: (l1 ++ 255 :: (l2 ++ 255 :: (q1 ++ q2))).take k3 := by
      rw [show t2.length + 1 + k3 = t2.length + (k3 + 1) by omega, List.take_append,
        List.take_succ_cons]
    rw [hsplit2, readString_field t2 _ hu2]
    simp only []
    rcases Nat.eq_zero_or_pos k3 with rfl | hk3pos
    · rw [List.take_zero, readU8_empty]
    rcases Nat.lt_or_ge k3 (l1.length + 1) with hC | hC
    · have hk3 : k3 ≤ l1.length := by omega
      rw [List.take_append_of_le_length hk3, readU8_trunc l1 h255l1 k3 hk3pos hk3]
    obtain ⟨k4, rfl⟩ : ∃ k4, k3 = l1.length + 1 + k4 := ⟨k3 - (l1.length + 1), by omega⟩
    have hsplit3 : (l1 ++ 255 :: (l2 ++ 255 :: (q1 ++ q2))).take (l1.length + 1 + k4) =
        l1 ++ 255 :: (l2 ++ 255 :: (q1 ++ q2)).take k4 := by
      rw [show l1.length + 1 + k4 = l1.length + (k4 + 1) by omega, List.take_append,
        List.take_succ_cons]
    rw [hsplit3, readU8_field l1 _ h255l1]
    simp only []
    rcases Nat.eq_zero_or_pos k4 with rfl | hk4pos
    · rw [List.take_zero, readU8_empty]
    rcases Nat.lt_or_ge k4 (l2.length + 1) with hD | hD
    · have hk4 : k4 ≤ l2.length := by omega
      rw [List.take_append_of_le_length hk4, readU8_trunc l2 h255l2 k4 hk4pos hk4]
    obtain ⟨m, rfl⟩ : ∃ m, k4 = l2.length + 1 + m := ⟨k4 - (l2.length + 1), by omega⟩
    have hsplit4 : (l2 ++ 255 :: (q1 ++ q2)).take (l2.length + 1 + m) =
        l2 ++ 255 :: (q1 ++ q2).take m := by
      rw [show l2.length + 1 + m = l2.length + (m + 1) by omega, List.take_append,
        List.take_succ_cons]
    rw [hsplit4, readU8_field l2 _ h255l2]
    simp only []
    have hm : m < q1.length + q2.length := by omega
    rcases Nat.lt_or_ge m q1.length with hm1 | hm1
    · have hre : readExact l1.length ((q1 ++ q2).take m) = .error .IncompleteRecord := by
        rw [readExact, if_neg]
        rw [List.length_take, List.length_append]
        omega
      rw [hre]
    · obtain ⟨m2, rfl⟩ : ∃ m2, m = q1.length + m2 := ⟨m - q1.length, by omega⟩
      rw [List.take_append, ← hq1, readExact_field]
      simp only []
      have hre : readExact l2.length (q2.take m2) = .error .IncompleteRecord := by
        rw [readExact, if_neg]
        rw [List.length_take]
        omega
      rw [hre]

theorem decodeLoopF_encode_trunc (ps : List Pair) (h : ∀ q ∈ ps, ValidPair q)
    (p : Pair) (hp : ValidPair p) (k : Nat) (h0 : 0 < k) (hk : k < (encodePair p).length) :
    ∀ fuel, ((ps.map encodePair).flatten ++ (encodePair p).take k).length < fuel →
    decodeLoopF fuel ((ps.map encodePair).flatten ++ (encodePair p).take k) =
      (ps.map clearSub, some .IncompleteRecord) := by
  induction ps with
  | nil =>
    intro fuel hf
    match fuel, hf with
    | f + 1, _ =>
      rw [List.map_nil, List.flatten_nil, List.nil_append, decodeLoopF,
        readNextRecord_trunc p hp k h0 hk]
      rfl
  | cons q ps ih =>
    intro fuel hf
    match fuel, hf with
    | f + 1, hf =>
      rw [List.map_cons, List.flatten_cons, List.append_assoc, decodeLoopF,
        readNextRecord_encode q _ (h q (List.mem_cons_self q ps))]
      simp only []
      have hlen : ((ps.map encodePair).flatten ++ (encodePair p).take k).length < f := by
        have hq := encodePair_length_pos q
        rw [List.map_cons, List.flatten_cons, List.append_assoc, List.length_append] at hf
        omega
      rw [ih (fun r hr => h r (List.mem_cons_of_mem q hr)) f hlen]
      simp

/-- C4: EOF at the very start of a record is the clean end of stream
(`read_next` returns false without error); and for any artifact holding
complete valid records followed by a record truncated anywhere strictly
inside it — in particular with the final quality run deleted — the
single-container decoder hands over exactly the complete records and
then fails with `IncompleteRecord`, never a silently short record. -/
theorem single_truncation :
    readNextRecord [] = .ok (none, []) ∧
    singleDecompress versionSingle = (([] : List Pair), none) ∧
    ∀ (ps : List Pair) (p : Pair) (k : Nat), (∀ q ∈ ps, ValidPair q) → ValidPair p →
      0 < k → k < (encodePair p).length →
      singleDecompress
          (versionSingle ++ ((ps.map encodePair).flatten ++ (encodePair p).take k)) =
        (ps.map clearSub, some .IncompleteRecord) := by
  refine ⟨readNextRecord_empty, by decide, ?_⟩
  intro ps p k hps hp h0 hk
  rw [singleDecompress, decompressWith, checkMagic_single_self]
  exact decodeLoopF_encode_trunc ps hps p hp k h0 hk _ (by omega)

/-- Witness for `single_truncation`: one valid pair whose final quality
run (its last byte) is cut off; the decoder reports `IncompleteRecord`
and hands no record to the sink. -/
theorem single_truncation_witness :
    ((∀ q ∈ ([] : List Pair), ValidPair q) ∧ ValidPair cxPair ∧ 0 < 9 ∧
      9 < (encodePair cxPair).length) ∧
    singleDecompress
        (versionSingle ++ ((([] : List Pair).map encodePair).flatten ++
          (encodePair cxPair).take 9)) =
      (([] : List Pair).map clearSub, some .IncompleteRecord) :=
  ⟨⟨by decide, by decide, by decide, by decide⟩,
    single_truncation.2.2 [] cxPair 9 (by decide) (by decide) (by decide) (by decide)⟩

/-! ## FASTQ text reader (fastq.rs)

Lines are read with `BufRead::read_line`, modelled as `readUntil 10`
(the newline stays in the returned buffer; a return of zero bytes, i.e.
EOF, happens exactly on the empty stream).  `String::trim_end` removes
trailing whitespace; the embedding covers the ASCII whitespace bytes
(the inputs of interest are ASCII; multi-byte Unicode whitespace is not
modelled).  `read_line`'s UTF-8 check is not modelled either: on the
byte sequences occurring in the theorems below it always succeeds, and
where arbitrary streams are quantified over, the model accepts a
superset of the real reader's inputs, which only strengthens the
invariant statements. -/

def isWsByte (b : Nat) : Bool :=
  b = 32 || b = 9 || b = 10 || b = 13 || b = 11 || b = 12

def trimEnd (l : List Nat) : List Nat := (l.reverse.dropWhile isWsByte).reverse

def readLine (s : List Nat) : List Nat × List Nat := readUntil 10 s

def isGraphic (b : Nat) : Bool := 33 ≤ b && b ≤ 126

/-- One step of `nuc_string_to_vec`'s match (fastq.rs lines 85-93),
case-folding to the lower-case code and rejecting anything outside
natcgNATCG.  (The Rust loop walks `char`s; each accepted char is a
one-byte ASCII character, and any multi-byte char is rejected exactly as
its individual bytes are here, so the byte-level model decides
acceptance and output identically.) -/
def nucByteLower (b : Nat) : Except FErr Nat :=
  if b = 110 || b = 78 then .ok 110
  else if b = 97 || b = 65 then .ok 97
  else if b = 116 || b = 84 then .ok 116
  else if b = 99 || b = 67 then .ok 99
  else if b = 103 || b = 71 then .ok 103
  else .error (.InvalidNucleotideLetter b)

/-- `nuc_string_to_vec` (fastq.rs lines 83-97). -/
def nucStringToVec : List Nat → Except FErr (List Nat)
  | [] => .ok []
  | b :: r =>
    match nucByteLower b with
    | .error e => .error e
    | .ok v =>
      match nucStringToVec r with
      | .error e => .error e
      | .ok vs => .ok (v :: vs)

/-- The blank-line-skipping title loop of `FastQFileReader::read_next`
(fastq.rs lines 126-135).  `read_line` appends to the `title` buffer,
which the loop never clears, so blank lines accumulate in front of the
title.  `none` models the `Ok(false)` return at EOF.  The fuel argument
bounds the iteration count; each iteration consumes at least one byte,
so the wrapper's `s.length + 1` is always enough. -/
def titleLoopF : Nat → List Nat → List Nat → Option (List Nat × List Nat)
  | 0, _, _ => none
  | fuel + 1, acc, s =>
    if s.isEmpty then none
    else
      let (line, rest) := readLine s
      if (trimEnd (acc ++ line)).isEmpty then titleLoopF fuel (acc ++ line) rest
      else some (acc ++ line, rest)

/-- `FastQFileReader::read_next` (fastq.rs lines 120-182): title loop;
`@`/`>` dispatch; nucleotide line (EOF is `IncompleteRecord`),
case-folded by `nuc_string_to_vec`; `+` description line; quality line,
required all ASCII-graphic, length-checked against the nucleotide line,
then offset by −32. -/
def fastqReadNextF (fuel : Nat) (s : List Nat) : Except FErr (Option Read × List Nat) :=
  match titleLoopF fuel [] s with
  | none => .ok (none, [])
  | some (title, s1) =>
    if title.head? = some 64 then
      if s1.isEmpty then .error .IncompleteRecord
      else
        let (nl, s2) := readLine s1
        match nucStringToVec (trimEnd nl) with
        | .error e => .error e
        | .ok letters =>
          if s2.isEmpty then .error .IncompleteRecord
          else
            let (sl, s3) := readLine s2
            if sl.head? = some 43 then
              if s3.isEmpty then .error .IncompleteRecord
              else
                let (qlr, s4) := readLine s3
                let ql := trimEnd qlr
                if ql.any (fun b => !(isGraphic b)) then .error .InvalidQualityLetter
                else if (trimEnd nl).length ≠ ql.length then .error .MismatchedSequenceLength
                else
                  .ok (some ⟨letters, ql.map (fun b => b - 32),
                    trimEnd (title.drop 1), trimEnd (sl.drop 1)⟩, s4)
            else .error .NoDescriptionLine
    else if title.head? = some 62 then .error .FastATitleLine
    else .error .NoTitleLine

def fastqReadNext (s : List Nat) : Except FErr (Option Read × List Nat) :=
  fastqReadNextF (s.length + 1) s

/-! ## Nucleotide transforms and the FASTQ writer -/

/-- The per-byte complement of `reverse_complement_nucleotides`
(fastq.rs lines 13-20); the catch-all arm panics, modelled as `none`. -/
def complementByte (b : Nat) : Option Nat :=
  if b = 110 then some 110
  else if b = 97 then some 116
  else if b = 116 then some 97
  else if b = 99 then some 103
  else if b = 103 then some 99
  else none

def mapComplement : List Nat → Option (List Nat)
  | [] => some []
  | b :: r =>
    match complementByte b with
    | none => none
    | some c =>
      match mapComplement r with
      | none => none
      | some cs => some (c :: cs)

/-- `reverse_complement_nucleotides` (fastq.rs lines 10-22): reverse in
place, then complement each byte, panicking on anything outside
n/a/t/c/g. -/
def reverse_complement_nucleotides (l : List Nat) : Option (List Nat) :=
  mapComplement l.reverse

/-- The per-byte upper-casing of `nuclotides_upper` (fastq.rs lines
26-33); the catch-all arm panics, modelled as `none`. -/
def upperByte (b : Nat) : Option Nat :=
  if b = 110 then some 78
  else if b = 97 then some 65
  else if b = 116 then some 84
  else if b = 99 then some 67
  else if b = 103 then some 71
  else none

def mapUpper : List Nat → Option (List Nat)
  | [] => some []
  | b :: r =>
    match upperByte b with
    | none => none
    | some c =>
      match mapUpper r with
      | none => none
      | some cs => some (c :: cs)

/-- `nuclotides_upper` (fastq.rs lines 24-35). -/
def nuclotides_upper (l : List Nat) : Option (List Nat) := mapUpper l

/-- `FastQFileWriter::write_next` (fastq.rs lines 311-335): emits
`@title\n`, the (optionally reverse-complemented) letters upper-cased,
a newline, `+sub_title\n`, and the qualities shifted by +32 followed by
a newline.  The two nucleotide transforms can panic (`none`).  (The
`q + 32` is u8 addition; for parser-produced qualities, at most 94, it
cannot wrap, and no theorem below applies it outside that range.) -/
def fastqWriteNext (r : Read) (rc : Bool) : Option (List Nat) :=
  match (if rc then reverse_complement_nucleotides r.letters else some r.letters) with
  | none => none
  | some ls =>
    match nuclotides_upper ls with
    | none => none
    | some us =>
      some (64 :: r.title ++ 10 :: us ++ 10 :: 43 :: r.sub_title ++ 10 ::
        (r.qualities.map (fun q => q + 32)) ++ [10])

/-! ## Paired readers (fastq.rs lines 226-285) -/

def rcRead (r : Read) : Option Read :=
  match reverse_complement_nucleotides r.letters with
  | none => none
  | some ls => some { r with letters := ls }

/-- `FastQPairedFilesReader::read_next` (fastq.rs lines 226-246): r1
from the first stream — false propagates as clean end of input; then r2
from the second stream — false there is `MissingPairedRead`; then r2 is
optionally reverse-complemented (which can panic: outer `none`). -/
def pairedReadNext (s1 s2 : List Nat) (rev : Bool) :
    Option (Except FErr (Option (Read × Read) × List Nat × List Nat)) :=
  match fastqReadNext s1 with
  | .error e => some (.error e)
  | .ok (none, t1) => some (.ok (none, t1, s2))
  | .ok (some r1, t1) =>
    match fastqReadNext s2 with
    | .error e => some (.error e)
    | .ok (none, _) => some (.error .MissingPairedRead)
    | .ok (some r2, t2) =>
      if rev then
        match rcRead r2 with
        | none => none
        | some r2x => some (.ok (some (r1, r2x), t1, t2))
      else some (.ok (some (r1, r2), t1, t2))

/-- `FastQInterleavedFileReader::read_next` (fastq.rs lines 265-285):
both reads come from the one stream, r2 immediately after r1. -/
def interleavedReadNext (s : List Nat) (rev : Bool) :
    Option (Except FErr (Option (Read × Read) × List Nat)) :=
  match fastqReadNext s with
  | .error e => some (.error e)
  | .ok (none, t) => some (.ok (none, t))
  | .ok (some r1, t1) =>
    match fastqReadNext t1 with
    | .error e => some (.error e)
    | .ok (none, _) => some (.error .MissingPairedRead)
    | .ok (some r2, t2) =>
      if rev then
        match rcRead r2 with
        | none => none
        | some r2x => some (.ok (some (r1, r2x), t2))
      else some (.ok (some (r1, r2), t2))

/-! ## Reverse-complement claims -/

/-- The substitution stated by the spec: A↔T, C↔G, N↔N on the stored
lower-case codes. -/
def nucComplementSpec (b : Nat) : Nat :=
  if b = 97 then 116
  else if b = 116 then 97
  else if b = 99 then 103
  else if b = 103 then 99
  else b

theorem complementByte_valid (b : Nat) (h : validNucByte b = true) :
    complementByte b = some (nucComplementSpec b) := by
  simp only [validNucByte, Bool.or_eq_true, decide_eq_true_eq] at h
  rcases h with ((((h | h) | h) | h) | h) <;> subst h <;> rfl

theorem mapComplement_valid (l : List Nat) (h : l.all validNucByte = true) :
    mapComplement l = some (l.map nucComplementSpec) := by
  induction l with
  | nil => rfl
  | cons b r ih =>
    rw [List.all_cons, Bool.and_eq_true] at h
    rw [mapComplement, complementByte_valid b h.1]
    simp only []
    rw [ih h.2]
    simp

/-- C6: on every sequence over the 5-symbol alphabet,
`reverse_complement_nucleotides` returns (without panicking) the input
with the symbol order reversed and each symbol substituted by its
complement A↔T, C↔G, N↔N. -/
theorem reverse_complement_correct (l : List Nat) (h : l.all validNucByte = true) :
    reverse_complement_nucleotides l = some ((l.map nucComplementSpec).reverse) := by
  rw [reverse_complement_nucleotides,
    mapComplement_valid _ (by rw [List.all_reverse]; exact h), List.map_reverse]

/-- Witness for `reverse_complement_correct` on the sequence "ac". -/
theorem reverse_complement_correct_witness :
    ([97, 99] : List Nat).all validNucByte = true ∧
    reverse_complement_nucleotides [97, 99] =
      some ((([97, 99] : List Nat).map nucComplementSpec).reverse) :=
  ⟨by decide, reverse_complement_correct [97, 99] (by decide)⟩

theorem complementByte_isSome (b : Nat) :
    (complementByte b).isSome = validNucByte b := by
  by_cases h1 : b = 110 <;> by_cases h2 : b = 97 <;> by_cases h3 : b = 116 <;>
    by_cases h4 : b = 99 <;> by_cases h5 : b = 103 <;>
    simp_all [complementByte, validNucByte]

theorem upperByte_isSome (b : Nat) : (upperByte b).isSome = validNucByte b := by
  by_cases h1 : b = 110 <;> by_cases h2 : b = 97 <;> by_cases h3 : b = 116 <;>
    by_cases h4 : b = 99 <;> by_cases h5 : b = 103 <;>
    simp_all [upperByte, validNucByte]

theorem mapComplement_isSome (l : List Nat) :
    (mapComplement l).isSome = l.all validNucByte := by
  induction l with
  | nil => rfl
  | cons b r ih =>
    rw [mapComplement, List.all_cons]
    have hb := complementByte_isSome b
    cases hc : complementByte b with
    | none =>
      rw [hc] at hb
      simp only [Option.isSome_none] at hb
      simp [← hb]
    | some c =>
      rw [hc] at hb
      simp only [Option.isSome_some] at hb
      rw [← hb, Bool.true_and]
      cases hm : mapComplement r with
      | none =>
        rw [hm] at ih
        simpa using ih
      | some cs =>
        rw [hm] at ih
        simpa using ih

theorem mapUpper_isSome (l : List Nat) : (mapUpper l).isSome = l.all validNucByte := by
  induction l with
  | nil => rfl
  | cons b r ih =>
    rw [mapUpper, List.all_cons]
    have hb := upperByte_isSome b
    cases hc : upperByte b with
    | none =>
      rw [hc] at hb
      simp only [Option.isSome_none] at hb
      simp [← hb]
    | some c =>
      rw [hc] at hb
      simp only [Option.isSome_some] at hb
      rw [← hb, Bool.true_and]
      cases hm : mapUpper r with
      | none =>
        rw [hm] at ih
        simpa using ih
      | some cs =>
        rw [hm] at ih
        simpa using ih

theorem nucByteLower_valid (b v : Nat) (h : nucByteLower b = .ok v) :
    validNucByte v = true := by
  rw [nucByteLower] at h
  split at h
  · simp only [Except.ok.injEq] at h; subst h; rfl
  split at h
  · simp only [Except.ok.injEq] at h; subst h; rfl
  split at h
  · simp only [Except.ok.injEq] at h; subst h; rfl
  split at h
  · simp only [Except.ok.injEq] at h; subst h; rfl
  split at h
  · simp only [Except.ok.injEq] at h; subst h; rfl
  · exact absurd h (by simp)

/-- C10: `reverse_complement_nucleotides` and `nuclotides_upper` return
normally exactly on byte vectors over the lower-case alphabet
n/a/t/c/g, and panic (`none`) on everything else — including upper-case
letters such as `A` (65); the lowercase-normalizing parser
`nuc_string_to_vec` only ever produces vectors inside that panic-free
domain. -/
theorem nucleotide_panic_domain :
    (∀ l : List Nat, (reverse_complement_nucleotides l).isSome = l.all validNucByte) ∧
    (∀ l : List Nat, (nuclotides_upper l).isSome = l.all validNucByte) ∧
    reverse_complement_nucleotides [65] = none ∧
    (∀ s ls : List Nat, nucStringToVec s = .ok ls → ls.all validNucByte = true) := by
  refine ⟨?_, ?_, by decide, ?_⟩
  · intro l
    rw [reverse_complement_nucleotides, mapComplement_isSome, List.all_reverse]
  · intro l
    exact mapUpper_isSome l
  · intro s
    induction s with
    | nil =>
      intro ls h
      rw [nucStringToVec] at h
      simp only [Except.ok.injEq] at h
      subst h
      rfl
    | cons b r ih =>
      intro ls h
      rw [nucStringToVec] at h
      split at h
      · exact absurd h (by simp)
      · rename_i v hv
        split at h
        · exact absurd h (by simp)
        · rename_i vs hvs
          simp only [Except.ok.injEq] at h
          subst h
          rw [List.all_cons, Bool.and_eq_true]
          exact ⟨nucByteLower_valid b v hv, ih vs hvs⟩

/-- Witness for `nucleotide_panic_domain`: the parse of "NA" yields
lower-cased bytes inside the panic-free domain. -/
theorem nucleotide_panic_domain_witness :
    ([110, 97] : List Nat).all validNucByte = true :=
  nucleotide_panic_domain.2.2.2 [78, 65] [110, 97] (by rfl)

/-- C7: for the paired-files reader and the interleaved reader alike,
`read_next` returns false exactly when the r1 read hits clean
end-of-input (and then no stream is consumed beyond it); when an r1
record is read but the r2 read hits end-of-input, the result is the
`MissingPairedRead` error. -/
theorem paired_read_next_eof_guard :
    (∀ (s1 s2 : List Nat) (rev : Bool) (t : List Nat),
        fastqReadNext s1 = .ok (none, t) →
        pairedReadNext s1 s2 rev = some (.ok (none, t, s2))) ∧
    (∀ (s1 s2 : List Nat) (rev : Bool) (t1 t2 : List Nat),
        pairedReadNext s1 s2 rev = some (.ok (none, t1, t2)) →
        fastqReadNext s1 = .ok (none, t1) ∧ t2 = s2) ∧
    (∀ (s1 s2 : List Nat) (rev : Bool) (r1 : Read) (t1 t : List Nat),
        fastqReadNext s1 = .ok (some r1, t1) → fastqReadNext s2 = .ok (none, t) →
        pairedReadNext s1 s2 rev = some (.error .MissingPairedRead)) ∧
    (∀ (s : List Nat) (rev : Bool) (t : List Nat),
        fastqReadNext s = .ok (none, t) →
        interleavedReadNext s rev = some (.ok (none, t))) ∧
    (∀ (s : List Nat) (rev : Bool) (t : List Nat),
        interleavedReadNext s rev = some (.ok (none, t)) →
        fastqReadNext s = .ok (none, t)) ∧
    (∀ (s : List Nat) (rev : Bool) (r1 : Read) (t1 t : List Nat),
        fastqReadNext s = .ok (some r1, t1) → fastqReadNext t1 = .ok (none, t) →
        interleavedReadNext s rev = some (.error .MissingPairedRead)) := by
  refine ⟨?_, ?_, ?_, ?_, ?_, ?_⟩
  · intro s1 s2 rev t h
    rw [pairedReadNext, h]
  · intro s1 s2 rev t1 t2 h
    rw [pairedReadNext] at h
    split at h
    · simp at h
    · rename_i t1' heq
      simp only [Option.some.injEq, Except.ok.injEq, Prod.mk.injEq, true_and] at h
      obtain ⟨h1, h2⟩ := h
      subst h1
      subst h2
      exact ⟨heq, rfl⟩
    · split at h
      · simp at h
      · simp at h
      · split at h
        · split at h
          · simp at h
          · simp at h
        · simp at h
  · intro s1 s2 rev r1 t1 t h1 h2
    rw [pairedReadNext, h1]
    simp only []
    rw [h2]
  · intro s rev t h
    rw [interleavedReadNext, h]
  · intro s rev t h
    rw [interleavedReadNext] at h
    split at h
    · simp at h
    · rename_i t' heq
      simp only [Option.some.injEq, Except.ok.injEq, Prod.mk.injEq, true_and] at h
      subst h
      exact heq
    · split at h
      · simp at h
      · simp at h
      · split at h
        · split at h
          · simp at h
          · simp at h
        · simp at h
  · intro s rev r1 t1 t h1 h2
    rw [interleavedReadNext, h1]
    simp only []
    rw [h2]

/-- A concrete one-record FASTQ stream: the bytes of
a title line, the nucleotide line A, the description line, and the
quality line with one character. -/
def recA : List Nat := [64, 116, 10, 65, 10, 43, 10, 33, 10]

/-- Witness for `paired_read_next_eof_guard` on concrete streams: an
empty input is a clean false; a one-record r1 with an empty r2 (paired
files) and a one-record interleaved stream both end in
`MissingPairedRead`. -/
theorem paired_read_next_eof_guard_witness :
    pairedReadNext [] [] false = some (.ok (none, [], [])) ∧
    pairedReadNext recA [] false = some (.error .MissingPairedRead) ∧
    interleavedReadNext recA false = some (.error .MissingPairedRead) :=
  ⟨paired_read_next_eof_guard.1 [] [] false [] rfl,
   paired_read_next_eof_guard.2.2.1 recA [] false ⟨[97], [1], [116], []⟩ [] [] rfl rfl,
   paired_read_next_eof_guard.2.2.2.2.2 recA false ⟨[97], [1], [116], []⟩ [] [] rfl rfl⟩

theorem nucStringToVec_length (l v : List Nat) (h : nucStringToVec l = .ok v) :
    v.length = l.length := by
  induction l generalizing v with
  | nil =>
    rw [nucStringToVec] at h
    simp only [Except.ok.injEq] at h
    subst h
    rfl
  | cons b r ih =>
    rw [nucStringToVec] at h
    split at h
    · exact absurd h (by simp)
    · split at h
      · exact absurd h (by simp)
      · rename_i vs hvs
        simp only [Except.ok.injEq] at h
        subst h
        simp [ih vs hvs]

/-- C8: every `Read` handed across a public interface satisfies
`len(sequence) == len(qualities)`: any record the FASTQ file reader
returns has nucleotide and quality vectors of equal length (unequal
lines are rejected with `MismatchedSequenceLength` before a record is
built), and every pair produced by the codec decoders' shared
`read_next` (single-container and multi-stream readers alike) has, in
both reads, a quality vector of exactly the letter vector's length. -/
theorem length_invariant :
    (∀ (s : List Nat) (r : Read) (t : List Nat),
        fastqReadNext s = .ok (some r, t) → r.letters.length = r.qualities.length) ∧
    (∀ (s : List Nat) (p : Pair) (t : List Nat),
        readNextRecord s = .ok (some p, t) →
        p.1.letters.length = p.1.qualities.length ∧
          p.2.letters.length = p.2.qualities.length) := by
  constructor
  · intro s r t h
    rw [fastqReadNext, fastqReadNextF] at h
    rcases ht : titleLoopF (s.length + 1) [] s with _ | ⟨title, s1⟩ <;> rw [ht] at h
    · simp at h
    simp only [] at h
    by_cases h64 : title.head? = some 64
    case neg =>
      rw [if_neg h64] at h
      by_cases h62 : title.head? = some 62
      · rw [if_pos h62] at h
        simp at h
      · rw [if_neg h62] at h
        simp at h
    rw [if_pos h64] at h
    by_cases he1 : s1.isEmpty = true
    · rw [if_pos he1] at h
      simp at h
    rw [if_neg he1] at h
    rcases hl1 : readLine s1 with ⟨nl, s2⟩
    rw [hl1] at h
    simp only [] at h
    rcases hnv : nucStringToVec (trimEnd nl) with e | letters <;> rw [hnv] at h
    · simp at h
    simp only [] at h
    by_cases he2 : s2.isEmpty = true
    · rw [if_pos he2] at h
      simp at h
    rw [if_neg he2] at h
    rcases hl2 : readLine s2 with ⟨sl, s3⟩
    rw [hl2] at h
    simp only [] at h
    by_cases h43 : sl.head? = some 43
    case neg =>
      rw [if_neg h43] at h
      simp at h
    rw [if_pos h43] at h
    by_cases he3 : s3.isEmpty = true
    · rw [if_pos he3] at h
      simp at h
    rw [if_neg he3] at h
    rcases hl3 : readLine s3 with ⟨qlr, s4⟩
    rw [hl3] at h
    simp only [] at h
    by_cases hg : (trimEnd qlr).any (fun b => !(isGraphic b)) = true
    · rw [if_pos hg] at h
      simp at h
    rw [if_neg hg] at h
    by_cases hlen : (trimEnd nl).length ≠ (trimEnd qlr).length
    · rw [if_pos hlen] at h
      simp at h
    rw [if_neg hlen] at h
    simp only [Except.ok.injEq, Option.some.injEq, Prod.mk.injEq] at h
    obtain ⟨rfl, rfl⟩ := h
    simp only [List.length_map]
    rw [nucStringToVec_length _ _ hnv]
    exact not_ne_iff.mp hlen
  · intro s p t h
    rw [readNextRecord] at h
    split at h
    · exact absurd h (by simp)
    · exact absurd h (by simp)
    · split at h
      · exact absurd h (by simp)
      · exact absurd h (by simp)
      · split at h
        · exact absurd h (by simp)
        · exact absurd h (by simp)
        · split at h
          · exact absurd h (by simp)
          · exact absurd h (by simp)
          · rename_i l2 s4 h4
            split at h
            · exact absurd h (by simp)
            · rename_i q1 s5 h5
              split at h
              · exact absurd h (by simp)
              · rename_i q2 s6 h6
                simp only [Except.ok.injEq, Prod.mk.injEq, Option.some.injEq] at h
                obtain ⟨rfl, rfl⟩ := h
                have e5 := (readExact_length _ s4 _ _ h5).2
                have e6 := (readExact_length _ s5 _ _ h6).2
                exact ⟨e5.symm, e6.symm⟩

/-- Witness for `length_invariant`: the read parsed from `recA` and the
pair decoded from the encoding of `cxPair`. -/
theorem length_invariant_witness :
    ((⟨[97], [1], [116], []⟩ : Read).letters.length =
      (⟨[97], [1], [116], []⟩ : Read).qualities.length) ∧
    ((clearSub cxPair).1.letters.length = (clearSub cxPair).1.qualities.length ∧
      (clearSub cxPair).2.letters.length = (clearSub cxPair).2.qualities.length) :=
  ⟨length_invariant.1 recA ⟨[97], [1], [116], []⟩ [] rfl,
   length_invariant.2 (encodePair cxPair) (clearSub cxPair) [] rfl⟩

/-! ## Parsing a well-formed record (support for the quality round trip) -/

/-- The bytes `nuc_string_to_vec` accepts: natcgNATCG. -/
def validNucAny (b : Nat) : Bool :=
  b = 110 || b = 78 || b = 97 || b = 65 || b = 116 || b = 84 || b = 99 || b = 67 ||
    b = 103 || b = 71

/-- The case-folding `nuc_string_to_vec` applies to an accepted byte. -/
def lowerNucSpec (b : Nat) : Nat :=
  if b = 78 then 110
  else if b = 65 then 97
  else if b = 84 then 116
  else if b = 67 then 99
  else if b = 71 then 103
  else b

/-- The substitution `nuclotides_upper` applies to a lower-case code. -/
def upperNucSpec (b : Nat) : Nat :=
  if b = 110 then 78
  else if b = 97 then 65
  else if b = 116 then 84
  else if b = 99 then 67
  else if b = 103 then 71
  else b

theorem nucByteLower_any (b : Nat) (h : validNucAny b = true) :
    nucByteLower b = .ok (lowerNucSpec b) := by
  simp only [validNucAny, Bool.or_eq_true, decide_eq_true_eq] at h
  rcases h with (((((((((h | h) | h) | h) | h) | h) | h) | h) | h) | h) <;> subst h <;> rfl

theorem nucStringToVec_any (l : List Nat) (h : l.all validNucAny = true) :
    nucStringToVec l = .ok (l.map lowerNucSpec) := by
  induction l with
  | nil => rfl
  | cons b r ih =>
    rw [List.all_cons, Bool.and_eq_true] at h
    rw [nucStringToVec, nucByteLower_any b h.1]
    simp only []
    rw [ih h.2]
    simp

theorem lowerNucSpec_valid (b : Nat) (h : validNucAny b = true) :
    validNucByte (lowerNucSpec b) = true := by
  simp only [validNucAny, Bool.or_eq_true, decide_eq_true_eq] at h
  rcases h with (((((((((h | h) | h) | h) | h) | h) | h) | h) | h) | h) <;> subst h <;> rfl

theorem upperByte_valid (b : Nat) (h : validNucByte b = true) :
    upperByte b = some (upperNucSpec b) := by
  simp only [validNucByte, Bool.or_eq_true, decide_eq_true_eq] at h
  rcases h with ((((h | h) | h) | h) | h) <;> subst h <;> rfl

theorem mapUpper_valid (l : List Nat) (h : l.all validNucByte = true) :
    mapUpper l = some (l.map upperNucSpec) := by
  induction l with
  | nil => rfl
  | cons b r ih =>
    rw [List.all_cons, Bool.and_eq_true] at h
    rw [mapUpper, upperByte_valid b h.1]
    simp only []
    rw [ih h.2]
    simp

theorem trimEnd_append10 (l : List Nat) : trimEnd (l ++ [10]) = trimEnd l := by
  rw [trimEnd, trimEnd, List.reverse_append]
  simp [List.dropWhile_cons, isWsByte]

theorem trimEnd_not_ws (l : List Nat) (h : ∀ b ∈ l, isWsByte b = false) :
    trimEnd l = l := by
  rw [trimEnd]
  have hd : l.reverse.dropWhile isWsByte = l.reverse := by
    cases hr : l.reverse with
    | nil => rfl
    | cons a as =>
      have ha : a ∈ l := by
        rw [← List.mem_reverse, hr]
        exact List.mem_cons_self a as
      rw [List.dropWhile_cons, h a ha]
      simp
  rw [hd, List.reverse_reverse]

theorem dropWhile_concat_eq_nil (p : Nat → Bool) (a : Nat) :
    ∀ xs : List Nat, (xs ++ [a]).dropWhile p = [] → p a = true := by
  intro xs
  induction xs with
  | nil =>
    intro h
    rw [List.nil_append, List.dropWhile_cons] at h
    split at h
    · assumption
    · simp at h
  | cons x xs ih =>
    intro h
    rw [List.cons_append, List.dropWhile_cons] at h
    split at h
    · exact ih h
    · simp at h

theorem trimEnd_cons_ne_nil (a : Nat) (l : List Nat) (ha : isWsByte a = false) :
    trimEnd (a :: l) ≠ [] := by
  rw [trimEnd, List.reverse_cons]
  intro hc
  rw [List.reverse_eq_nil_iff] at hc
  rw [dropWhile_concat_eq_nil isWsByte a l.reverse hc] at ha
  exact absurd ha (by simp)

theorem graphic_not_ws (b : Nat) (h : isGraphic b = true) : isWsByte b = false := by
  simp only [isGraphic, Bool.and_eq_true, decide_eq_true_eq] at h
  simp only [isWsByte, Bool.or_eq_false_iff, decide_eq_false_iff_not]
  omega

theorem validNucAny_not_ws (b : Nat) (h : validNucAny b = true) : isWsByte b = false := by
  simp only [validNucAny, Bool.or_eq_true, decide_eq_true_eq] at h
  simp only [isWsByte, Bool.or_eq_false_iff, decide_eq_false_iff_not]
  omega

theorem not_mem_of_all_not_ws (d : Nat) (l : List Nat) (hd : isWsByte d = true)
    (h : ∀ b ∈ l, isWsByte b = false) : d ∉ l := by
  intro hm
  rw [h d hm] at hd
  exact absurd hd (by simp)

/-- One iteration of the blank-skipping loop on a stream whose first
line is non-blank. -/
theorem titleLoopF_first (fuel : Nat) (acc t R : List Nat)
    (hne : ¬(trimEnd (acc ++ (t ++ [10]))).isEmpty = true) (h10 : (10 : Nat) ∉ t) :
    titleLoopF (fuel + 1) acc (t ++ 10 :: R) = some (acc ++ (t ++ [10]), R) := by
  rw [titleLoopF]
  rw [if_neg (by simp : ¬(t ++ 10 :: R).isEmpty = true)]
  simp only [readLine, readUntil_delim 10 t R h10]
  rw [if_neg hne]

/-- The byte stream of one well-formed FASTQ record: `@title`,
nucleotide line, `+sub`, quality line, each newline-terminated. -/
def mkFastqRecord (title nucs sub ql : List Nat) : List Nat :=
  64 :: (title ++ 10 :: (nucs ++ 10 :: (43 :: (sub ++ 10 :: (ql ++ [10])))))

/-- Walking `read_next` over one well-formed record: everything up to
the quality checks is deterministic, leaving exactly the
graphic-character guard and the length guard of the quality line. -/
theorem fastqReadNext_mk (title nucs sub ql rest : List Nat)
    (hT10 : (10 : Nat) ∉ title) (hTtrim : trimEnd title = title)
    (hS10 : (10 : Nat) ∉ sub) (hStrim : trimEnd sub = sub)
    (hN : nucs.all validNucAny = true) (hQ10 : (10 : Nat) ∉ ql) :
    fastqReadNext (mkFastqRecord title nucs sub ql ++ rest) =
      (if (trimEnd ql).any (fun b => !(isGraphic b)) then .error .InvalidQualityLetter
       else if nucs.length ≠ (trimEnd ql).length then .error .MismatchedSequenceLength
       else .ok (some ⟨nucs.map lowerNucSpec, (trimEnd ql).map (fun b => b - 32),
         title, sub⟩, rest)) := by
  have hNws : ∀ b ∈ nucs, isWsByte b = false :=
    fun b hb => validNucAny_not_ws b (List.all_eq_true.mp hN b hb)
  have hN10 : (10 : Nat) ∉ nucs := not_mem_of_all_not_ws 10 nucs (by decide) hNws
  have hNtrim : trimEnd nucs = nucs := trimEnd_not_ws nucs hNws
  have hTc : (10 : Nat) ∉ 64 :: title := by
    intro hm
    rcases List.mem_cons.mp hm with h | h
    · omega
    · exact hT10 h
  have hSc : (10 : Nat) ∉ 43 :: sub := by
    intro hm
    rcases List.mem_cons.mp hm with h | h
    · omega
    · exact hS10 h
  have hneT : ¬(trimEnd (([] : List Nat) ++ ((64 :: title) ++ [10]))).isEmpty = true := by
    rw [List.nil_append, trimEnd_append10]
    intro hc
    exact trimEnd_cons_ne_nil 64 title (by decide) (List.isEmpty_iff.mp hc)
  have hstream : mkFastqRecord title nucs sub ql ++ rest =
      (64 :: title) ++ 10 :: (nucs ++ 10 :: ((43 :: sub) ++ 10 :: (ql ++ 10 :: rest))) := by
    simp [mkFastqRecord]
  rw [hstream, fastqReadNext, fastqReadNextF,
    titleLoopF_first _ [] (64 :: title) _ hneT hTc]
  simp only [List.nil_append]
  have hcondT : ((64 :: title) ++ [10]).head? = some 64 := by simp
  rw [if_pos hcondT]
  rw [if_neg (by simp :
    ¬(nucs ++ 10 :: ((43 :: sub) ++ 10 :: (ql ++ 10 :: rest))).isEmpty = true)]
  simp only [readLine, readUntil_delim 10 nucs _ hN10]
  simp only [List.cons_append, trimEnd_append10]
  rw [hNtrim, nucStringToVec_any nucs hN]
  simp only []
  rw [if_neg (by simp : ¬(43 :: (sub ++ 10 :: (ql ++ 10 :: rest))).isEmpty = true)]
  have hrl2 : readUntil 10 (43 :: (sub ++ 10 :: (ql ++ 10 :: rest))) =
      (43 :: (sub ++ [10]), ql ++ 10 :: rest) := by
    rw [show (43 : Nat) :: (sub ++ 10 :: (ql ++ 10 :: rest)) =
        (43 :: sub) ++ 10 :: (ql ++ 10 :: rest) by simp,
      readUntil_delim 10 (43 :: sub) _ hSc]
    simp
  simp only [hrl2]
  rw [if_pos (by simp : (43 :: (sub ++ [10])).head? = some 43)]
  rw [if_neg (by simp : ¬(ql ++ 10 :: rest).isEmpty = true)]
  simp only [readUntil_delim 10 ql rest hQ10]
  simp only [trimEnd_append10]
  have hdT : trimEnd (List.drop 1 (64 :: (title ++ [10]))) = title := by
    simp only [List.drop_succ_cons, List.drop_zero]
    rw [trimEnd_append10, hTtrim]
  have hdS : trimEnd (List.drop 1 (43 :: (sub ++ [10]))) = sub := by
    simp only [List.drop_succ_cons, List.drop_zero]
    rw [trimEnd_append10, hStrim]
  rw [hdT, hdS]

theorem map_sub_add (ql : List Nat) (h : ql.all isGraphic = true) :
    (ql.map (fun b => b - 32)).map (fun q => q + 32) = ql := by
  induction ql with
  | nil => rfl
  | cons b r ih =>
    rw [List.all_cons, Bool.and_eq_true] at h
    have hb : 33 ≤ b := by
      have h1 := h.1
      simp only [isGraphic, Bool.and_eq_true, decide_eq_true_eq] at h1
      omega
    simp only [List.map_cons]
    rw [ih h.2]
    congr 1
    omega

theorem fastqWriteNext_parsed (title sub nucs ql : List Nat)
    (hN : nucs.all validNucAny = true) (hQ : ql.all isGraphic = true) :
    fastqWriteNext ⟨nucs.map lowerNucSpec, ql.map (fun b => b - 32), title, sub⟩ false =
      some (64 :: title ++ 10 :: (nucs.map lowerNucSpec).map upperNucSpec ++ 10 ::
        43 :: sub ++ 10 :: ql ++ [10]) := by
  rw [fastqWriteNext]
  simp only [Bool.false_eq_true, if_false]
  have hval : (nucs.map lowerNucSpec).all validNucByte = true := by
    rw [List.all_map, List.all_eq_true]
    intro b hb
    exact lowerNucSpec_valid b (List.all_eq_true.mp hN b hb)
  rw [nuclotides_upper, mapUpper_valid _ hval]
  simp only []
  rw [map_sub_add ql hQ]

/-- C9: the FASTQ reader requires every byte of the (trimmed) quality
line to be ASCII-graphic — otherwise `InvalidQualityLetter` — and
stores each quality character c as c − 32; the writer emits each stored
quality back as q + 32, so writing a read parsed by the reader
reproduces the record's original quality line exactly (the final
`ql ++ [10]` of the emitted bytes). -/
theorem quality_line_round_trip (title nucs sub ql rest : List Nat)
    (hT10 : (10 : Nat) ∉ title) (hTtrim : trimEnd title = title)
    (hS10 : (10 : Nat) ∉ sub) (hStrim : trimEnd sub = sub)
    (hN : nucs.all validNucAny = true) :
    (ql.all isGraphic = true → nucs.length = ql.length →
      fastqReadNext (mkFastqRecord title nucs sub ql ++ rest) =
        .ok (some ⟨nucs.map lowerNucSpec, ql.map (fun b => b - 32), title, sub⟩, rest) ∧
      fastqWriteNext ⟨nucs.map lowerNucSpec, ql.map (fun b => b - 32), title, sub⟩ false =
        some (64 :: title ++ 10 :: (nucs.map lowerNucSpec).map upperNucSpec ++ 10 ::
          43 :: sub ++ 10 :: ql ++ [10])) ∧
    ((10 : Nat) ∉ ql → trimEnd ql = ql → ¬ql.all isGraphic = true →
      fastqReadNext (mkFastqRecord title nucs sub ql ++ rest) =
        .error .InvalidQualityLetter) := by
  constructor
  · intro hQ hLen
    have hQws : ∀ b ∈ ql, isWsByte b = false :=
      fun b hb => graphic_not_ws b (List.all_eq_true.mp hQ b hb)
    have hQ10 : (10 : Nat) ∉ ql := not_mem_of_all_not_ws 10 ql (by decide) hQws
    have hQtrim : trimEnd ql = ql := trimEnd_not_ws ql hQws
    constructor
    · rw [fastqReadNext_mk title nucs sub ql rest hT10 hTtrim hS10 hStrim hN hQ10, hQtrim]
      have hany : ¬(ql.any fun b => !(isGraphic b)) = true := by
        intro hc
        rw [List.any_eq_true] at hc
        obtain ⟨x, hx, hpx⟩ := hc
        have := List.all_eq_true.mp hQ x hx
        simp [this] at hpx
      rw [if_neg hany, if_neg (not_ne_iff.mpr hLen)]
    · exact fastqWriteNext_parsed title sub nucs ql hN hQ
  · intro hQ10 hQtrim hnall
    rw [fastqReadNext_mk title nucs sub ql rest hT10 hTtrim hS10 hStrim hN hQ10, hQtrim]
    have hex : ∃ x ∈ ql, isGraphic x = false := by
      by_contra hno
      push_neg at hno
      apply hnall
      rw [List.all_eq_true]
      intro x hx
      have := hno x hx
      simpa using this
    obtain ⟨x, hx, hfx⟩ := hex
    rw [if_pos (by rw [List.any_eq_true]; exact ⟨x, hx, by simp [hfx]⟩)]

/-- Witness for `quality_line_round_trip` on the record
`@t` / `A` / `+` / `!`: the quality byte 33 is stored as 1 and written
back as 33. -/
theorem quality_line_round_trip_witness :
    fastqReadNext (mkFastqRecord [116] [65] [] [33] ++ []) =
      .ok (some ⟨([65] : List Nat).map lowerNucSpec,
        ([33] : List Nat).map (fun b => b - 32), [116], []⟩, []) ∧
    fastqWriteNext ⟨([65] : List Nat).map lowerNucSpec,
        ([33] : List Nat).map (fun b => b - 32), [116], []⟩ false =
      some (64 :: [116] ++ 10 :: (([65] : List Nat).map lowerNucSpec).map upperNucSpec ++
        10 :: 43 :: [] ++ 10 :: [33] ++ [10]) :=
  (quality_line_round_trip [116] [65] [] [33] [] (by decide) (by decide) (by decide)
    (by decide) (by decide)).1 (by decide) (by decide)
